import Mathlib

/-!
Verification of the parsec consensus engine core against its specification.

Each section shallowly embeds one part of the Rust source:

* `split_on_first`  (src/gossip/split_on_first.rs)
* the consensus driver's payload selection (src/parsec.rs, `compute_consensus`
  and `compute_payload_for_consensus`)
* the gossip graph queries (src/gossip/event.rs, `is_descendant_of`, `sees`,
  `descends_from_fork`; src/parsec.rs, `strongly_sees`)
* interesting-payload quorum (src/parsec.rs, `ConsensusMode::check`,
  `is_interesting_payload`)
* meta-election rotation (src/parsec.rs, `compute_next_meta_election_start_index`)
* the request/response pipeline (src/parsec.rs, `handle_request`,
  `create_accusation_events`, `vote_for`)
* event packing/unpacking (src/gossip/event.rs, `Event::pack`, `Event::unpack`)
* unprovable-malice comparison and serialization (src/observation.rs)

Machine integers (`usize`) are modelled as `Nat`: none of the embedded code
relies on overflow. Maps (`BTreeMap`) are modelled as association lists,
sets (`BTreeSet`) as lists. Cryptographic hashing and signing are abstract
operations, passed in as function parameters, matching the source which is
generic over the `PublicId`/`SecretId` interface.
-/

namespace Parsec

/-! ## split_on_first (src/gossip/split_on_first.rs)

The iterator's `next` pops the leading element unconditionally, then extends
the chunk while the predicate is false; the chunk boundary sits right before
the next element satisfying the predicate. -/

def split_on_first {α : Type} (p : α → Bool) : List α → List (List α)
  | [] => []
  | x :: xs =>
      (x :: xs.takeWhile (fun a => !p a)) ::
        split_on_first p (xs.dropWhile (fun a => !p a))
termination_by l => l.length
decreasing_by
  simp only [List.length_cons]
  exact Nat.lt_succ_of_le (List.dropWhile_sublist _).length_le

theorem split_on_first_nil {α : Type} (p : α → Bool) : split_on_first p [] = [] := by
  simp [split_on_first]

theorem split_on_first_cons {α : Type} (p : α → Bool) (x : α) (xs : List α) :
    split_on_first p (x :: xs) =
      (x :: xs.takeWhile (fun a => !p a)) ::
        split_on_first p (xs.dropWhile (fun a => !p a)) := by
  rw [split_on_first]

/-- Concatenating the chunks recovers the input list. -/
theorem split_on_first_flatten {α : Type} (p : α → Bool) (l : List α) :
    (split_on_first p l).flatten = l := by
  induction l using split_on_first.induct p with
  | case1 => simp [split_on_first]
  | case2 x xs ih =>
      rw [split_on_first_cons]
      simp only [List.flatten_cons, List.cons_append]
      rw [List.cons_eq_cons]
      refine ⟨rfl, ?_⟩
      rw [ih, List.takeWhile_append_dropWhile]

/-- Inside a chunk, every element after the head falsifies the predicate. -/
theorem split_on_first_tail_not {α : Type} (p : α → Bool) (l : List α) :
    ∀ c ∈ split_on_first p l, ∀ a ∈ c.tail, p a = false := by
  induction l using split_on_first.induct p with
  | case1 => simp [split_on_first]
  | case2 x xs ih =>
      rw [split_on_first_cons]
      intro c hc a ha
      rcases List.mem_cons.mp hc with hc | hc
      · subst hc
        simp only [List.tail_cons] at ha
        have := List.mem_takeWhile_imp ha
        simpa using this
      · exact ih c hc a ha

/-- Every chunk other than the first starts with an element satisfying the
predicate. -/
theorem split_on_first_later_heads {α : Type} (p : α → Bool) (l : List α) :
    ∀ c ∈ (split_on_first p l).tail, ∃ y ys, c = y :: ys ∧ p y = true := by
  induction l using split_on_first.induct p with
  | case1 => simp [split_on_first]
  | case2 x xs ih =>
      rw [split_on_first_cons]
      intro c hc
      simp only [List.tail_cons] at hc
      -- `c` is a chunk of the recursive call on the dropWhile suffix.
      rcases h : xs.dropWhile (fun a => !p a) with _ | ⟨y, ys⟩
      · rw [h, split_on_first_nil] at hc
        exact absurd hc (List.not_mem_nil c)
      · rw [h, split_on_first_cons] at hc
        rcases List.mem_cons.mp hc with hc | hc
        · refine ⟨y, ys.takeWhile (fun a => !p a), hc, ?_⟩
          have hw : xs.dropWhile (fun a => !p a) ≠ [] := by
            rw [h]; exact List.cons_ne_nil y ys
          have hhead := List.head_dropWhile_not (fun a => !p a) xs hw
          simp only [h, List.head_cons] at hhead
          simpa using hhead
        · apply ih c
          rw [h, split_on_first_cons, List.tail_cons]
          exact hc

/-- C7: for every input list and predicate, the chunks yielded by
`split_on_first` concatenate, in order, to exactly the input list; in every
chunk no element other than the first satisfies the predicate; and the first
element of every chunk except possibly the first chunk satisfies the
predicate. -/
theorem split_on_first_chunk_shape {α : Type} (p : α → Bool) (l : List α) :
    (split_on_first p l).flatten = l ∧
      (∀ c ∈ split_on_first p l, ∀ a ∈ c.tail, p a = false) ∧
      (∀ c ∈ (split_on_first p l).tail, ∃ y ys, c = y :: ys ∧ p y = true) :=
  ⟨split_on_first_flatten p l, split_on_first_tail_not p l,
    split_on_first_later_heads p l⟩

theorem split_on_first_chunk_shape_witness :
    (split_on_first (fun n => n == 2) [0, 1, 2, 1, 3]).flatten
        = [0, 1, 2, 1, 3] ∧
      ((1 : Nat) == 2) = false ∧ ∃ y ys, ([2, 1, 3] : List Nat) = y :: ys ∧
        (y == 2) = true := by
  have h := split_on_first_chunk_shape (fun n => n == 2) [0, 1, 2, 1, 3]
  have heval : split_on_first (fun n => n == 2) [0, 1, 2, 1, 3]
      = [[0, 1], [2, 1, 3]] := by
    simp [split_on_first_cons, split_on_first_nil, List.takeWhile,
      List.dropWhile]
  refine ⟨h.1, ?_, ?_⟩
  · exact h.2.1 [2, 1, 3] (by rw [heval]; simp) 1 (by simp)
  · exact h.2.2 [2, 1, 3] (by rw [heval]; simp)

/-! ## Consensus payload selection (src/parsec.rs, lines 1403-1458)

`ObservationHash` and peer ids are abstracted as naturals: the source is
generic over the hash type and the `PublicId` type, and only compares them
for equality. -/

abbrev ObservationHash := Nat

abbrev PeerId := Nat

/-- Step of the binary-agreement step machine. Modelled from the spec:
`meta_voting::Step` is not under src/; the spec lists the three steps
ForcedTrue, ForcedFalse, GenuineFlip. -/
inductive Step where
  | forcedTrue
  | forcedFalse
  | genuineFlip
deriving DecidableEq

/-- Modelled from the spec: `meta_voting::MetaVote` is not under src/; the
spec gives the state `(round, step, estimates, bin_values, aux_value,
decision)`. `compute_consensus` reads only the `decision` of the last vote. -/
structure MetaVote where
  round : Nat
  step : Step
  estimates : List Bool
  bin_values : List Bool
  aux_value : Option Bool
  decision : Option Bool
deriving DecidableEq

/-- The `decided_meta_votes` iterator of `compute_consensus`: each voter's
last meta-vote's decision, skipping voters without one. -/
def decided_meta_votes (lmv : List (PeerId × List MetaVote)) :
    List (PeerId × Bool) :=
  lmv.filterMap fun pv =>
    (pv.2.getLast?.bind (fun v => v.decision)).map (fun d => (pv.1, d))

/-- Rust's `Iterator::max_by`: folds keeping the accumulator only when it
compares strictly greater, so of several equally-maximal elements the LAST
one is returned. -/
def rust_max_by {α : Type} (cmp : α → α → Ordering) : List α → Option α
  | [] => none
  | x :: xs =>
      some (xs.foldl (fun acc y => if cmp acc y = Ordering.gt then acc else y) x)

/-- The payload list built by `compute_payload_for_consensus`: for each voter
that decided `true`, that voter's first interesting-content payload
(`first_interesting_content_by`, from the meta_voting module). -/
def decided_true_payloads (fic : PeerId → Option ObservationHash)
    (decided : List (PeerId × Bool)) : List ObservationHash :=
  decided.filterMap fun pd => if pd.2 then fic pd.1 else none

def compute_payload_for_consensus (fic : PeerId → Option ObservationHash)
    (decided : List (PeerId × Bool)) : Option ObservationHash :=
  let payloads := decided_true_payloads fic decided
  rust_max_by (fun l r => compare (payloads.count l) (payloads.count r)) payloads

def compute_consensus (last_meta_votes : Option (List (PeerId × List MetaVote)))
    (voter_count : Nat) (decided_payload_hash : Option ObservationHash)
    (fic : PeerId → Option ObservationHash) : Option ObservationHash :=
  match last_meta_votes with
  | none => none
  | some lmv =>
      let decided := decided_meta_votes lmv
      if decided.length < voter_count then none
      else decided_payload_hash.orElse fun _ =>
        compute_payload_for_consensus fic decided

/-- The selector described by the claim: the payload appearing most often,
with ties broken by the FIRST occurrence in the payload list. -/
def claim_winner_ties_first (l : List ObservationHash) : Option ObservationHash :=
  l.find? fun x => l.all fun y => l.count y ≤ l.count x

/-- One step of the `max_by` fold, keyed by `f`. -/
def max_by_step {α : Type} (f : α → Nat) (a y : α) : α :=
  if compare (f a) (f y) = Ordering.gt then a else y

theorem foldl_max_by_spec {α : Type} (f : α → Nat) :
    ∀ (xs : List α) (acc res : α), xs.foldl (max_by_step f) acc = res →
      (∀ z ∈ xs, f z ≤ f res) ∧ f acc ≤ f res ∧
        ((res = acc ∧ ∀ z ∈ xs, f z < f res) ∨
          ∃ u v, xs = u ++ res :: v ∧ ∀ z ∈ v, f z < f res)
  | [], acc, res, h => by
      subst h
      simp
  | y :: ys, acc, res, h => by
      have key : ys.foldl (max_by_step f) (max_by_step f acc y) = res := h
      obtain ⟨h1, h2, h3⟩ := foldl_max_by_spec f ys (max_by_step f acc y) res key
      by_cases hgt : compare (f acc) (f y) = Ordering.gt
      · have hlt : f y < f acc := Nat.compare_eq_gt.mp hgt
        have hstep : max_by_step f acc y = acc := if_pos hgt
        have hacc : f acc ≤ f res := by rw [← hstep]; exact h2
        refine ⟨?_, hacc, ?_⟩
        · intro z hz
          rcases List.mem_cons.mp hz with rfl | hz
          · exact le_trans (le_of_lt hlt) hacc
          · exact h1 z hz
        · rcases h3 with ⟨hres, hlts⟩ | ⟨u, v, hsplit, hlts⟩
          · rw [hstep] at hres
            refine Or.inl ⟨hres, ?_⟩
            intro z hz
            rcases List.mem_cons.mp hz with rfl | hz
            · rw [hres]; exact hlt
            · exact hlts z hz
          · exact Or.inr ⟨y :: u, v, by rw [hsplit, List.cons_append], hlts⟩
      · have hle : f acc ≤ f y := by
          rcases Nat.lt_or_ge (f y) (f acc) with hlt | hge
          · exact absurd (Nat.compare_eq_gt.mpr hlt) hgt
          · exact hge
        have hstep : max_by_step f acc y = y := if_neg hgt
        have hy : f y ≤ f res := by rw [← hstep]; exact h2
        refine ⟨?_, le_trans hle hy, ?_⟩
        · intro z hz
          rcases List.mem_cons.mp hz with rfl | hz
          · exact hy
          · exact h1 z hz
        · rcases h3 with ⟨hres, hlts⟩ | ⟨u, v, hsplit, hlts⟩
          · rw [hstep] at hres
            exact Or.inr ⟨[], ys, by rw [hres]; rfl, hlts⟩
          · exact Or.inr ⟨y :: u, v, by rw [hsplit, List.cons_append], hlts⟩

/-- `rust_max_by` keyed by a count returns the maximal element, breaking
ties in favour of the LAST occurrence: everything after the returned element
has a strictly smaller key. -/
theorem rust_max_by_last_max {α : Type} (f : α → Nat) (x : α) (xs : List α) :
    ∃ res, rust_max_by (fun a b => compare (f a) (f b)) (x :: xs) = some res ∧
      (∀ z ∈ x :: xs, f z ≤ f res) ∧
      ∃ u v, x :: xs = u ++ res :: v ∧ ∀ z ∈ v, f z < f res := by
  obtain ⟨h1, h2, h3⟩ :=
    foldl_max_by_spec f xs x (xs.foldl (max_by_step f) x) rfl
  refine ⟨xs.foldl (max_by_step f) x, rfl, ?_, ?_⟩
  · intro z hz
    rcases List.mem_cons.mp hz with rfl | hz
    · exact h2
    · exact h1 z hz
  · rcases h3 with ⟨hres, hlts⟩ | ⟨u, v, hsplit, hlts⟩
    · refine ⟨[], xs, ?_, hlts⟩
      rw [hres]
      rfl
    · refine ⟨x :: u, v, ?_, hlts⟩
      nth_rewrite 1 [hsplit]
      rfl

/-- C1 (amended): when every voter's last meta-vote carries a decision and no
payload was previously recorded, the winning payload is drawn from the
true-deciders' first interesting-content payloads and is the payload
appearing most often among them, with ties broken by the LAST occurrence in
that list (Rust's `max_by` keeps the last maximal element). -/
theorem compute_consensus_most_frequent_ties_last
    (lmv : List (PeerId × List MetaVote)) (voter_count : Nat)
    (fic : PeerId → Option ObservationHash)
    (hdecided : voter_count ≤ (decided_meta_votes lmv).length)
    (hne : decided_true_payloads fic (decided_meta_votes lmv) ≠ []) :
    ∃ w, compute_consensus (some lmv) voter_count none fic = some w ∧
      (∀ q ∈ decided_true_payloads fic (decided_meta_votes lmv),
        (decided_true_payloads fic (decided_meta_votes lmv)).count q ≤
          (decided_true_payloads fic (decided_meta_votes lmv)).count w) ∧
      ∃ u v, decided_true_payloads fic (decided_meta_votes lmv) = u ++ w :: v ∧
        ∀ q ∈ v, (decided_true_payloads fic (decided_meta_votes lmv)).count q <
          (decided_true_payloads fic (decided_meta_votes lmv)).count w := by
  obtain ⟨x, xs, hp⟩ :
      ∃ x xs, decided_true_payloads fic (decided_meta_votes lmv) = x :: xs := by
    cases h : decided_true_payloads fic (decided_meta_votes lmv) with
    | nil => exact absurd h hne
    | cons a l => exact ⟨a, l, rfl⟩
  obtain ⟨res, hmax, hub, u, v, hsplit, hlts⟩ :=
    rust_max_by_last_max
      (fun a => (decided_true_payloads fic (decided_meta_votes lmv)).count a) x xs
  rw [← hp] at hmax hub hsplit
  refine ⟨res, ?_, hub, u, v, hsplit, hlts⟩
  have hnotlt : ¬ (decided_meta_votes lmv).length < voter_count :=
    Nat.not_lt.mpr hdecided
  simp only [compute_consensus, if_neg hnotlt, Option.none_orElse]
  exact hmax

theorem compute_consensus_most_frequent_ties_last_witness :
    ∃ w, compute_consensus
        (some [(0, [MetaVote.mk 0 Step.forcedTrue [] [] none (some true)]),
               (1, [MetaVote.mk 0 Step.forcedTrue [] [] none (some true)])])
        2 none (fun i => if i = 0 then some 10 else some 20) = some w ∧
      (∀ q ∈ decided_true_payloads (fun i => if i = 0 then some 10 else some 20)
          (decided_meta_votes
            [(0, [MetaVote.mk 0 Step.forcedTrue [] [] none (some true)]),
             (1, [MetaVote.mk 0 Step.forcedTrue [] [] none (some true)])]),
        (decided_true_payloads (fun i => if i = 0 then some 10 else some 20)
          (decided_meta_votes
            [(0, [MetaVote.mk 0 Step.forcedTrue [] [] none (some true)]),
             (1, [MetaVote.mk 0 Step.forcedTrue [] [] none (some true)])])).count q ≤
          (decided_true_payloads (fun i => if i = 0 then some 10 else some 20)
            (decided_meta_votes
              [(0, [MetaVote.mk 0 Step.forcedTrue [] [] none (some true)]),
               (1, [MetaVote.mk 0 Step.forcedTrue [] [] none (some true)])])).count w) ∧
      ∃ u v, decided_true_payloads (fun i => if i = 0 then some 10 else some 20)
          (decided_meta_votes
            [(0, [MetaVote.mk 0 Step.forcedTrue [] [] none (some true)]),
             (1, [MetaVote.mk 0 Step.forcedTrue [] [] none (some true)])]) = u ++ w :: v ∧
        ∀ q ∈ v, (decided_true_payloads (fun i => if i = 0 then some 10 else some 20)
          (decided_meta_votes
            [(0, [MetaVote.mk 0 Step.forcedTrue [] [] none (some true)]),
             (1, [MetaVote.mk 0 Step.forcedTrue [] [] none (some true)])])).count q <
          (decided_true_payloads (fun i => if i = 0 then some 10 else some 20)
            (decided_meta_votes
              [(0, [MetaVote.mk 0 Step.forcedTrue [] [] none (some true)]),
               (1, [MetaVote.mk 0 Step.forcedTrue [] [] none (some true)])])).count w :=
  compute_consensus_most_frequent_ties_last _ 2 _ (by decide) (by decide)

/-- C1 counterexample: two voters both decide `true` with distinct
first-interesting payloads 10 and 20, each occurring once. The code returns
20, the LAST of the tied payloads, while the claim's tie-break (first
occurrence) names 10. -/
theorem compute_consensus_tie_breaks_last_not_first :
    compute_consensus
        (some [(0, [MetaVote.mk 0 Step.forcedTrue [] [] none (some true)]),
               (1, [MetaVote.mk 0 Step.forcedTrue [] [] none (some true)])])
        2 none (fun i => if i = 0 then some 10 else some 20) = some 20 ∧
      claim_winner_ties_first
        (decided_true_payloads (fun i => if i = 0 then some 10 else some 20)
          (decided_meta_votes
            [(0, [MetaVote.mk 0 Step.forcedTrue [] [] none (some true)]),
             (1, [MetaVote.mk 0 Step.forcedTrue [] [] none (some true)])]))
        = some 10 ∧ (20 : ObservationHash) ≠ 10 := by
  refine ⟨by decide, by decide, by decide⟩

/-! ## Gossip graph model (src/gossip/event.rs, src/parsec.rs)

Events are stored in a topologically ordered vector; peers are identified by
naturals (the source's `PeerIndex`). Each event carries the cached fields of
the source's `Cache` struct: `index_by_creator` and the per-peer
`ancestor_info` map (`AncestorInfo { last, forks }`), here an association
list. `BTreeMap` lookups become `alist_get`. -/

def alist_get {β : Type} : List (Nat × β) → Nat → Option β
  | [], _ => none
  | kv :: t, k => if kv.1 = k then some kv.2 else alist_get t k

/-- `AncestorInfo`: for one peer, the highest `index_by_creator` among the
event's ancestors by that peer, and the fork map from `index_by_creator` to
the set of fork-branch identifiers the event descends from. -/
structure AncestorInfo where
  last : Nat
  forks : List (Nat × List Nat)
deriving DecidableEq, Repr

structure GEvent where
  creator : Nat
  self_parent : Option Nat
  other_parent : Option Nat
  index_by_creator : Nat
  payload_hash : Option Nat
  ancestor_info : List (Nat × AncestorInfo)
deriving DecidableEq, Repr

abbrev Graph := List GEvent

def ancestor_info_get (e : GEvent) (peer : Nat) : Option AncestorInfo :=
  alist_get e.ancestor_info peer

/-- `Event::fork_set`: the fork set this event is a member of (none when the
event is not forking or is the first member of its fork set). -/
def fork_set (e : GEvent) : Option (List Nat) :=
  (ancestor_info_get e e.creator).bind fun info =>
    alist_get info.forks e.index_by_creator

/-- `Event::descends_from_fork`: the event has ancestors on at least two
sides of a fork by `creator`. -/
def descends_from_fork (e : GEvent) (creator : Nat) : Bool :=
  match ancestor_info_get e creator with
  | some info => info.forks.any fun kv => 1 < kv.2.length
  | none => false

/-- `Event::is_descendant_of`, computed from the cached `ancestor_info`. -/
def is_descendant_of (e other : GEvent) : Bool :=
  match ancestor_info_get e other.creator with
  | none => false
  | some info =>
      if info.last < other.index_by_creator then false
      else
        match alist_get info.forks other.index_by_creator with
        | some self_forks =>
            match fork_set other with
            | some other_forks => self_forks.any fun b => other_forks.contains b
            | none => self_forks.contains 0
        | none =>
            match fork_set other with
            | some other_forks => other_forks.contains 0
            | none => true

/-- `Event::sees`: descendant, not through a provable fork by the other's
creator. -/
def sees (e other : GEvent) : Bool :=
  !descends_from_fork e other.creator && is_descendant_of e other

/-- `Event::last_ancestors`: (peer, highest ancestor index) pairs. -/
def last_ancestors (e : GEvent) : List (Nat × Nat) :=
  e.ancestor_info.map fun kv => (kv.1, kv.2.last)

/-- The peer list's (peer, index_by_creator) → topological indices index.
Modelled from the spec: peer_list.rs is not under src/; the spec (section 3,
Gossip graph) describes this secondary index directly. -/
def events_by_index (g : Graph) (peer idx : Nat) : List Nat :=
  (List.range g.length).filter fun i =>
    (g.get? i).any fun e => e.creator == peer && e.index_by_creator == idx

def is_more_than_two_thirds (small large : Nat) : Bool :=
  decide (3 * small > 2 * large)

/-- src/parsec.rs lines 1530-1547. -/
def num_peers_created_events_seen_by_x_that_can_see_y (g : Graph)
    (x y : GEvent) : Nat :=
  (last_ancestors x).countP fun kv =>
    (events_by_index g kv.1 kv.2).any fun i =>
      (g.get? i).any fun e => sees x e && sees e y

/-- src/parsec.rs lines 1551-1560, with the election's voter count passed
explicitly. -/
def strongly_sees (g : Graph) (x y : GEvent) (voter_count : Nat) : Bool :=
  is_more_than_two_thirds
    (num_peers_created_events_seen_by_x_that_can_see_y g x y) voter_count

/-! Claim-side notions: plain reachability along parent edges (the spec's
`is_descendant`, section 4.1), independent of the cached ancestor info. -/

def parent_indices (e : GEvent) : List Nat :=
  e.self_parent.toList ++ e.other_parent.toList

def reaches (g : Graph) : Nat → Nat → Nat → Bool
  | 0, a, b => a == b
  | fuel + 1, a, b =>
      a == b ||
        (g.get? a).any fun e =>
          (parent_indices e).any fun p => reaches g fuel p b

/-- Event at index `a` is a descendant of the event at index `b` (parents
have smaller topological indices, so `g.length` steps of fuel suffice). -/
def is_descendant_idx (g : Graph) (a b : Nat) : Bool :=
  reaches g g.length a b

/-- The count as the claim words it: distinct peers P such that some event E
with creator P has x as descendant and is a descendant of y. -/
def claim_strong_see_count (g : Graph) (xi yi : Nat) : Nat :=
  (((g.map GEvent.creator).dedup).filter fun p =>
    (List.range g.length).any fun i =>
      (g.get? i).any fun e =>
        e.creator == p && is_descendant_idx g xi i && is_descendant_idx g i yi).length

def claim_strongly_sees (g : Graph) (xi yi voter_count : Nat) : Bool :=
  is_more_than_two_thirds (claim_strong_see_count g xi yi) voter_count

def index_by_creator_at (g : Graph) (i : Nat) : Nat :=
  match g.get? i with
  | some e => e.index_by_creator
  | none => 0

/-- Structural well-formedness of a graph value: parents precede their
children, a self-parent shares the creator and is one index-by-creator
earlier, initial events have index-by-creator 0 (spec invariants I1, I2). -/
def wf_parents (g : Graph) : Bool :=
  (List.range g.length).all fun i =>
    (g.get? i).any fun e =>
      (match e.self_parent with
       | some sp =>
           decide (sp < i) &&
             ((g.get? sp).any fun pe =>
               pe.creator == e.creator &&
                 e.index_by_creator == pe.index_by_creator + 1)
       | none => e.index_by_creator == 0) &&
      (match e.other_parent with
       | some op => decide (op < i)
       | none => true)

/-- The spec's invariant on the cached `last` entries (section 8):
`ancestor_info[P].last` is the maximum `index_by_creator` over ancestors by
`P`, and an entry exists exactly when such an ancestor exists. -/
def wf_last_ancestors (g : Graph) : Bool :=
  (List.range g.length).all fun i =>
    ((g.map GEvent.creator).dedup).all fun p =>
      let anc := (List.range g.length).filter fun j =>
        ((g.get? j).any fun ej => ej.creator == p) && is_descendant_idx g i j
      match (g.get? i).bind fun e => alist_get e.ancestor_info p with
      | some info =>
          anc.any (fun j => index_by_creator_at g j == info.last) &&
            anc.all fun j => decide (index_by_creator_at g j ≤ info.last)
      | none => anc.isEmpty

/-! The counterexample graph: three peers 0, 1, 2. Peer 1 forks at
index-by-creator 1: `ev3` (first branch) and `ev4` (second branch, branch
id 1) share self-parent `ev1`. `ev7` descends from both branches (via `ev5`
over `ev3` and via `ev6` over `ev4`), so `ev7.sees` no event by peer 1.
`ev3` is a descendant of `ev0`, so plain descendancy counts peer 1 toward
strongly-seeing `ev0`, but the code does not. The `ancestor_info` values
are derived by the spec's merge rule (section 4.1): self-parent's map,
other-parent entries merged keeping the larger `last` and unioning fork
sets, then the creator's own entry; `ev4` records its fork-branch id 1 at
index 1. -/

def ev0 : GEvent := ⟨0, none, none, 0, none, [(0, ⟨0, []⟩)]⟩

def ev1 : GEvent := ⟨1, none, none, 0, none, [(1, ⟨0, []⟩)]⟩

def ev2 : GEvent := ⟨2, none, none, 0, none, [(2, ⟨0, []⟩)]⟩

def ev3 : GEvent := ⟨1, some 1, some 0, 1, none, [(0, ⟨0, []⟩), (1, ⟨1, []⟩)]⟩

def ev4 : GEvent := ⟨1, some 1, none, 1, some 99, [(1, ⟨1, [(1, [1])]⟩)]⟩

def ev5 : GEvent := ⟨0, some 0, some 3, 1, none, [(0, ⟨1, []⟩), (1, ⟨1, []⟩)]⟩

def ev6 : GEvent := ⟨2, some 2, some 4, 1, none,
  [(1, ⟨1, [(1, [1])]⟩), (2, ⟨1, []⟩)]⟩

def ev7 : GEvent := ⟨2, some 6, some 5, 2, none,
  [(0, ⟨1, []⟩), (1, ⟨1, [(1, [1])]⟩), (2, ⟨2, []⟩)]⟩

def fork_graph : Graph := [ev0, ev1, ev2, ev3, ev4, ev5, ev6, ev7]

/-- C2 counterexample: with 3 voters, the claim's count (peers P having an
event E with creator P, x descendant of E, E descendant of y, by parent
edges) is 3 for x = ev7, y = ev0, exceeding two thirds, yet `strongly_sees`
returns false: ev7 descends from a fork by peer 1 so it `sees` no event by
peer 1. The graph value is structurally well-formed and its cached
last-ancestor entries match the spec's invariant. -/
theorem strongly_sees_fork_counterexample :
    claim_strongly_sees fork_graph 7 0 3 = true ∧
      strongly_sees fork_graph ev7 ev0 3 = false ∧
      wf_parents fork_graph = true ∧ wf_last_ancestors fork_graph = true := by
  refine ⟨by decide, by decide, by decide, by decide⟩

theorem option_any_eq_true {α : Type} (o : Option α) (f : α → Bool) :
    o.any f = true ↔ ∃ a, o = some a ∧ f a = true := by
  cases o <;> simp [Option.any]

theorem countP_eq_filter_keys {β : Type} (pred : Nat × β → Bool) :
    ∀ l : List (Nat × β), (l.map Prod.fst).Nodup →
      l.countP pred =
        ((l.map Prod.fst).filter fun p =>
          (alist_get l p).any fun b => pred (p, b)).length
  | [], _ => rfl
  | (k, v) :: t, hnodup => by
      rw [List.map_cons] at hnodup
      have hk : k ∉ t.map Prod.fst := (List.nodup_cons.mp hnodup).1
      have ht : (t.map Prod.fst).Nodup := (List.nodup_cons.mp hnodup).2
      have ih := countP_eq_filter_keys pred t ht
      have htail : (t.map Prod.fst).filter
            (fun p => (alist_get ((k, v) :: t) p).any fun b => pred (p, b))
          = (t.map Prod.fst).filter
            (fun p => (alist_get t p).any fun b => pred (p, b)) := by
        refine List.filter_congr ?_
        intro p hp
        have hne : ¬ ((k, v).1 = p) := by
          intro h
          cases h
          exact hk hp
        simp [alist_get, hne]
      have hhead : ((alist_get ((k, v) :: t) k).any fun b => pred (k, b))
          = pred (k, v) := by simp [alist_get]
      rw [List.countP_cons, List.map_cons, List.filter_cons, hhead, htail, ih]
      cases hp : pred (k, v) with
      | true => simp [hp]
      | false => simp [hp]

theorem events_by_index_any (g : Graph) (p idx : Nat) (f : Nat → Bool) :
    (events_by_index g p idx).any f = true ↔
      ∃ i, i < g.length ∧ ∃ e, g.get? i = some e ∧ e.creator = p ∧
        e.index_by_creator = idx ∧ f i = true := by
  simp only [events_by_index, List.any_eq_true, List.mem_filter, List.mem_range]
  constructor
  · rintro ⟨i, ⟨hi, hcond⟩, hf⟩
    obtain ⟨e, he, hce⟩ := (option_any_eq_true _ _).mp hcond
    obtain ⟨hc, hidx⟩ : _ ∧ _ := by simpa using hce
    exact ⟨i, hi, e, he, by simpa using hc, by simpa using hidx, hf⟩
  · rintro ⟨i, hi, e, he, hc, hidx, hf⟩
    exact ⟨i, ⟨hi, (option_any_eq_true _ _).mpr ⟨e, he, by simp [hc, hidx]⟩⟩, hf⟩

theorem num_peers_eq_filter_keys (g : Graph) (x y : GEvent)
    (hnodup : (x.ancestor_info.map Prod.fst).Nodup) :
    num_peers_created_events_seen_by_x_that_can_see_y g x y
      = ((x.ancestor_info.map Prod.fst).filter fun p =>
          (alist_get x.ancestor_info p).any fun info =>
            (events_by_index g p info.last).any fun i =>
              (g.get? i).any fun e => sees x e && sees e y).length := by
  rw [num_peers_created_events_seen_by_x_that_can_see_y, last_ancestors,
    List.countP_map]
  exact countP_eq_filter_keys _ x.ancestor_info hnodup

open Classical

/-- C2 (amended): `strongly_sees(x, y)` returns true if and only if the
number of distinct peers P recorded in x's ancestor map, such that there
exists an event E with creator(E) = P whose index-by-creator equals x's
highest ancestor index for P, where x sees E and E sees y ("sees" being
descent that does not pass through a provable fork by the seen event's
creator), exceeds two-thirds of the election's voter count. -/
theorem strongly_sees_last_ancestor_characterization
    (g : Graph) (x y : GEvent) (V : Nat)
    (hnodup : (x.ancestor_info.map Prod.fst).Nodup) :
    strongly_sees g x y V = true ↔
      2 * V < 3 * Finset.card ((x.ancestor_info.map Prod.fst).toFinset.filter
        fun p => ∃ info, ancestor_info_get x p = some info ∧
          ∃ i, i < g.length ∧ ∃ e, g.get? i = some e ∧ e.creator = p ∧
            e.index_by_creator = info.last ∧ sees x e = true ∧
              sees e y = true) := by
  have hnum : num_peers_created_events_seen_by_x_that_can_see_y g x y
      = Finset.card ((x.ancestor_info.map Prod.fst).toFinset.filter
        fun p => ∃ info, ancestor_info_get x p = some info ∧
          ∃ i, i < g.length ∧ ∃ e, g.get? i = some e ∧ e.creator = p ∧
            e.index_by_creator = info.last ∧ sees x e = true ∧
              sees e y = true) := by
    rw [num_peers_eq_filter_keys g x y hnodup]
    have hfilter_nodup : ((x.ancestor_info.map Prod.fst).filter fun p =>
        (alist_get x.ancestor_info p).any fun info =>
          (events_by_index g p info.last).any fun i =>
            (g.get? i).any fun e => sees x e && sees e y).Nodup :=
      hnodup.filter _
    rw [← List.toFinset_card_of_nodup hfilter_nodup, List.toFinset_filter]
    congr 1
    refine Finset.filter_congr ?_
    intro p _
    rw [option_any_eq_true]
    constructor
    · rintro ⟨info, hget, hany⟩
      obtain ⟨i, hi, e, he, hc, hidx, hsees⟩ :=
        (events_by_index_any g p info.last _).mp hany
      obtain ⟨ev, hev, hseesb⟩ := (option_any_eq_true _ _).mp hsees
      obtain ⟨hxe, hey⟩ : _ ∧ _ := by simpa using hseesb
      rw [he] at hev
      cases hev
      exact ⟨info, by simpa [ancestor_info_get] using hget, i, hi, e, he, hc,
        hidx, hxe, hey⟩
    · rintro ⟨info, hget, i, hi, e, he, hc, hidx, hxe, hey⟩
      refine ⟨info, by simpa [ancestor_info_get] using hget, ?_⟩
      refine (events_by_index_any g p info.last _).mpr
        ⟨i, hi, e, he, hc, hidx, ?_⟩
      exact (option_any_eq_true _ _).mpr ⟨e, he, by rw [hxe, hey]; rfl⟩
  rw [strongly_sees, is_more_than_two_thirds, hnum]
  simp [gt_iff_lt]

theorem strongly_sees_last_ancestor_characterization_witness :
    strongly_sees fork_graph ev7 ev0 3 = true ↔
      2 * 3 < 3 * Finset.card ((ev7.ancestor_info.map Prod.fst).toFinset.filter
        fun p => ∃ info, ancestor_info_get ev7 p = some info ∧
          ∃ i, i < fork_graph.length ∧ ∃ e, fork_graph.get? i = some e ∧
            e.creator = p ∧ e.index_by_creator = info.last ∧
              sees ev7 e = true ∧ sees e ev0 = true) :=
  strongly_sees_last_ancestor_characterization fork_graph ev7 ev0 3 (by decide)

/-! ## Interesting-payload quorum (src/parsec.rs, lines 39-59 and 981-1030)

Observation values are content-addressed: an observation is represented by
its hash paired with its kind, so distinct hashes never compare equal
(mirroring the injective canonical-serialization hash of the source). -/

inductive ObservationK where
  | genesis
  | add
  | remove
  | accusation
  | opaquePayload
deriving DecidableEq, Repr

inductive ConsensusMode where
  | single
  | supermajority
deriving DecidableEq, Repr

/-- `ConsensusMode::check` (src/parsec.rs lines 52-59). -/
def ConsensusMode.check (m : ConsensusMode) (did_vote can_vote : Nat) : Bool :=
  match m with
  | .single => decide (did_vote > 0)
  | .supermajority => is_more_than_two_thirds did_vote can_vote

/-- The observation value carried by a vote, looked up by hash in the
observation store (`self.observations.get(payload_hash)`). -/
def payload_val (observations : List (Nat × ObservationK)) (ph : Nat) :
    Option (Nat × ObservationK) :=
  (alist_get observations ph).map fun k => (ph, k)

/-- src/parsec.rs lines 1008-1030: voters with an event from `start_index`
on that carries the payload and is seen by `event`. -/
def num_creators_of_ancestors_carrying_payload (g : Graph)
    (observations : List (Nat × ObservationK)) (peers_that_can_vote : List Nat)
    (event : GEvent) (payload_hash start_index : Nat) : Nat :=
  peers_that_can_vote.countP fun peer =>
    ((List.range g.length).drop start_index).any fun i =>
      (g.get? i).any fun te =>
        te.creator == peer &&
          (payload_val observations payload_hash ==
            te.payload_hash.bind (payload_val observations)) &&
          sees event te

/-- src/parsec.rs lines 981-1006. -/
def is_interesting_payload (g : Graph)
    (observations : List (Nat × ObservationK)) (peers_that_can_vote : List Nat)
    (event : GEvent) (payload_hash start_index : Nat)
    (consensus_mode : ConsensusMode) : Bool :=
  let num := num_creators_of_ancestors_carrying_payload g observations
    peers_that_can_vote event payload_hash start_index
  let mode := match alist_get observations payload_hash with
    | some ObservationK.opaquePayload => consensus_mode
    | _ => ConsensusMode.supermajority
  mode.check num peers_that_can_vote.length

theorem range_drop_eq_range' : ∀ (m s n : Nat),
    (List.range' s n).drop m = List.range' (s + m) (n - m)
  | 0, s, n => by simp
  | m + 1, s, 0 => by simp
  | m + 1, s, n + 1 => by
      rw [List.range'_succ, List.drop_succ_cons, range_drop_eq_range' m (s + 1) n]
      have h1 : s + 1 + m = s + (m + 1) := by omega
      have h2 : n - m = n + 1 - (m + 1) := by omega
      rw [h1, h2]

theorem mem_range_drop {n s i : Nat} :
    i ∈ (List.range n).drop s ↔ s ≤ i ∧ i < n := by
  rw [List.range_eq_range', range_drop_eq_range']
  simp only [List.mem_range', Nat.zero_add, Nat.one_mul]
  constructor
  · rintro ⟨j, hj, rfl⟩
    omega
  · rintro ⟨hsi, hin⟩
    exact ⟨i - s, by omega, by omega⟩

/-- Count of voters satisfying a boolean test, as a finset cardinality. -/
theorem countP_eq_card_filter (l : List Nat) (hl : l.Nodup) (q : Nat → Bool) :
    l.countP q = (l.toFinset.filter fun a => q a = true).card := by
  rw [List.countP_eq_length_filter, ← List.toFinset_card_of_nodup (hl.filter q),
    List.toFinset_filter]

/-- C4: an OpaquePayload needs, under ConsensusMode::Single, at least one
voter whose vote-carrying event (from the election's start index on) is seen
by the event, and under Supermajority more than two-thirds of the voters;
every other observation kind needs more than two-thirds regardless of the
configured mode. -/
theorem is_interesting_payload_quorum (g : Graph)
    (obs : List (Nat × ObservationK)) (voters : List Nat) (event : GEvent)
    (ph start : Nat) (hvoters : voters.Nodup) :
    (alist_get obs ph = some ObservationK.opaquePayload →
      (is_interesting_payload g obs voters event ph start ConsensusMode.single
          = true ↔
        0 < (voters.toFinset.filter fun peer => ∃ i, start ≤ i ∧ i < g.length ∧
          ∃ e, g.get? i = some e ∧ e.creator = peer ∧
            payload_val obs ph = e.payload_hash.bind (payload_val obs) ∧
            sees event e = true).card) ∧
      (is_interesting_payload g obs voters event ph start
          ConsensusMode.supermajority = true ↔
        2 * voters.length < 3 * (voters.toFinset.filter fun peer =>
          ∃ i, start ≤ i ∧ i < g.length ∧ ∃ e, g.get? i = some e ∧
            e.creator = peer ∧
            payload_val obs ph = e.payload_hash.bind (payload_val obs) ∧
            sees event e = true).card)) ∧
    (∀ k, alist_get obs ph = some k → k ≠ ObservationK.opaquePayload →
      ∀ mode, is_interesting_payload g obs voters event ph start mode = true ↔
        2 * voters.length < 3 * (voters.toFinset.filter fun peer =>
          ∃ i, start ≤ i ∧ i < g.length ∧ ∃ e, g.get? i = some e ∧
            e.creator = peer ∧
            payload_val obs ph = e.payload_hash.bind (payload_val obs) ∧
            sees event e = true).card) := by
  have hcount : num_creators_of_ancestors_carrying_payload g obs voters event
      ph start = (voters.toFinset.filter fun peer =>
        ∃ i, start ≤ i ∧ i < g.length ∧ ∃ e, g.get? i = some e ∧
          e.creator = peer ∧
          payload_val obs ph = e.payload_hash.bind (payload_val obs) ∧
          sees event e = true).card := by
    rw [num_creators_of_ancestors_carrying_payload,
      countP_eq_card_filter voters hvoters]
    refine congrArg Finset.card (Finset.filter_congr ?_)
    intro peer _
    rw [List.any_eq_true]
    constructor
    · rintro ⟨i, hi, hcond⟩
      obtain ⟨hsi, hin⟩ := mem_range_drop.mp hi
      obtain ⟨e, he, hce⟩ := (option_any_eq_true _ _).mp hcond
      obtain ⟨hcr, hrest⟩ : _ ∧ _ := by
        simpa only [Bool.and_eq_true, Bool.and_assoc] using hce
      obtain ⟨hpay, hsees⟩ : _ ∧ _ := hrest
      refine ⟨i, hsi, hin, e, he, by simpa using hcr, by simpa using hpay, hsees⟩
    · rintro ⟨i, hsi, hin, e, he, hcr, hpay, hsees⟩
      refine ⟨i, mem_range_drop.mpr ⟨hsi, hin⟩, ?_⟩
      refine (option_any_eq_true _ _).mpr ⟨e, he, ?_⟩
      simp only [Bool.and_eq_true, Bool.and_assoc]
      exact ⟨by simpa using hcr, by simpa using hpay, hsees⟩
  refine ⟨fun hopq => ⟨?_, ?_⟩, fun k hk hne mode => ?_⟩
  · rw [is_interesting_payload]
    simp only [hopq, hcount, ConsensusMode.check]
    simp [gt_iff_lt]
  · rw [is_interesting_payload]
    simp only [hopq, hcount, ConsensusMode.check, is_more_than_two_thirds]
    simp [gt_iff_lt]
  · rw [is_interesting_payload]
    have hmode : (match alist_get obs ph with
        | some ObservationK.opaquePayload => mode
        | _ => ConsensusMode.supermajority) = ConsensusMode.supermajority := by
      rw [hk]
      cases k with
      | opaquePayload => exact absurd rfl hne
      | genesis => rfl
      | add => rfl
      | remove => rfl
      | accusation => rfl
    simp only [hmode, hcount, ConsensusMode.check, is_more_than_two_thirds]
    simp [gt_iff_lt]

theorem is_interesting_payload_quorum_witness :
    ((alist_get [(99, ObservationK.opaquePayload)] 99
        = some ObservationK.opaquePayload →
      (is_interesting_payload fork_graph [(99, ObservationK.opaquePayload)]
          [0, 1, 2] ev7 99 0 ConsensusMode.single = true ↔
        0 < (([0, 1, 2] : List Nat).toFinset.filter fun peer =>
          ∃ i, 0 ≤ i ∧ i < fork_graph.length ∧
          ∃ e, fork_graph.get? i = some e ∧ e.creator = peer ∧
            payload_val [(99, ObservationK.opaquePayload)] 99
              = e.payload_hash.bind (payload_val [(99, ObservationK.opaquePayload)]) ∧
            sees ev7 e = true).card) ∧
      (is_interesting_payload fork_graph [(99, ObservationK.opaquePayload)]
          [0, 1, 2] ev7 99 0 ConsensusMode.supermajority = true ↔
        2 * ([0, 1, 2] : List Nat).length < 3 *
          (([0, 1, 2] : List Nat).toFinset.filter fun peer =>
          ∃ i, 0 ≤ i ∧ i < fork_graph.length ∧
          ∃ e, fork_graph.get? i = some e ∧ e.creator = peer ∧
            payload_val [(99, ObservationK.opaquePayload)] 99
              = e.payload_hash.bind (payload_val [(99, ObservationK.opaquePayload)]) ∧
            sees ev7 e = true).card)) ∧
    (∀ k, alist_get [(99, ObservationK.opaquePayload)] 99 = some k →
      k ≠ ObservationK.opaquePayload →
      ∀ mode, is_interesting_payload fork_graph [(99, ObservationK.opaquePayload)]
          [0, 1, 2] ev7 99 0 mode = true ↔
        2 * ([0, 1, 2] : List Nat).length < 3 *
          (([0, 1, 2] : List Nat).toFinset.filter fun peer =>
          ∃ i, 0 ≤ i ∧ i < fork_graph.length ∧
          ∃ e, fork_graph.get? i = some e ∧ e.creator = peer ∧
            payload_val [(99, ObservationK.opaquePayload)] 99
              = e.payload_hash.bind (payload_val [(99, ObservationK.opaquePayload)]) ∧
            sees ev7 e = true).card)) :=
  is_interesting_payload_quorum fork_graph [(99, ObservationK.opaquePayload)]
    [0, 1, 2] ev7 99 0 (by decide)

/-! ## Meta-election rotation (src/parsec.rs, lines 1511-1525)

The observation store entry flags relevant here (`ObservationInfo`):
`consensused` and `created_by_us`. -/

structure ObservationInfo where
  consensused : Bool
  created_by_us : Bool
deriving DecidableEq, Repr

/-- The filter of `compute_next_meta_election_start_index`: the event at
topological index `i` carries a payload whose observation is known and not
yet consensused (`unwrap_or(false)` on a missing payload or store entry). -/
def carries_unconsensused (g : Graph)
    (observations : List (Nat × ObservationInfo)) (i : Nat) : Bool :=
  (g.get? i).any fun e =>
    match e.payload_hash with
    | some ph =>
        match alist_get observations ph with
        | some info => !info.consensused
        | none => false
    | none => false

/-- src/parsec.rs lines 1511-1525: first index at or after the current
election's start index whose event carries an unconsensused payload, else
the graph length. -/
def compute_next_meta_election_start_index (g : Graph)
    (observations : List (Nat × ObservationInfo)) (current_start : Nat) : Nat :=
  match ((List.range g.length).drop current_start).find? fun i =>
      carries_unconsensused g observations i with
  | some i => i
  | none => g.length

/-- The claim's notion: earliest event anywhere in the graph carrying a
still-unconsensused payload. -/
def earliest_unconsensused (g : Graph)
    (observations : List (Nat × ObservationInfo)) : Option Nat :=
  (List.range g.length).find? fun i => carries_unconsensused g observations i

theorem find?_range'_spec (p : Nat → Bool) :
    ∀ (len s : Nat),
      (∀ r, (List.range' s len).find? p = some r →
        s ≤ r ∧ r < s + len ∧ p r = true ∧
          ∀ j, s ≤ j → j < r → p j = false) ∧
      ((List.range' s len).find? p = none →
        ∀ j, s ≤ j → j < s + len → p j = false)
  | 0, s => by
      constructor
      · intro r hr
        simp [List.find?] at hr
      · intro _ j hsj hjs
        omega
  | len + 1, s => by
      obtain ⟨ihsome, ihnone⟩ := find?_range'_spec p len (s + 1)
      rw [List.range'_succ]
      constructor
      · intro r hr
        rw [List.find?_cons] at hr
        cases hp : p s with
        | true =>
            rw [hp] at hr
            simp only [Option.some_inj] at hr
            subst hr
            exact ⟨Nat.le_refl s, by omega, hp, fun j hsj hjr => by omega⟩
        | false =>
            rw [hp] at hr
            obtain ⟨hsr, hrlen, hpr, hprev⟩ := ihsome r hr
            refine ⟨by omega, by omega, hpr, ?_⟩
            intro j hsj hjr
            rcases Nat.eq_or_lt_of_le hsj with rfl | hlt
            · exact hp
            · exact hprev j hlt hjr
      · intro hr j hsj hjlen
        rw [List.find?_cons] at hr
        cases hp : p s with
        | true => rw [hp] at hr; exact absurd hr (by simp)
        | false =>
            rw [hp] at hr
            rcases Nat.eq_or_lt_of_le hsj with rfl | hlt
            · exact hp
            · exact ihnone hr j hlt (by omega)

/-- C5: provided every event below the current election's start index
carries only consensused (or no) payloads — the invariant the driver
maintains across rotations — the next election's start index equals the
topological index of the earliest event in the whole graph carrying a
still-unconsensused payload, and the graph length when no such event
exists. -/
theorem compute_next_start_index_graph_earliest (g : Graph)
    (obs : List (Nat × ObservationInfo)) (start : Nat)
    (hinv : ∀ i, i < start → carries_unconsensused g obs i = false) :
    compute_next_meta_election_start_index g obs start
      = (earliest_unconsensused g obs).getD g.length := by
  rw [compute_next_meta_election_start_index, earliest_unconsensused,
    List.range_eq_range', range_drop_eq_range']
  obtain ⟨hsome, hnone⟩ :=
    find?_range'_spec (fun i => carries_unconsensused g obs i) (g.length - start)
      (0 + start)
  obtain ⟨hsome0, hnone0⟩ :=
    find?_range'_spec (fun i => carries_unconsensused g obs i) g.length 0
  cases hfind : (List.range' (0 + start) (g.length - start)).find? fun i =>
      carries_unconsensused g obs i with
  | some r =>
      obtain ⟨hsr, hrlen, hpr, hprev⟩ := hsome r hfind
      cases hfind0 : (List.range' 0 g.length).find? fun i =>
          carries_unconsensused g obs i with
      | some r0 =>
          obtain ⟨_, hr0len, hpr0, hprev0⟩ := hsome0 r0 hfind0
          rcases Nat.lt_trichotomy r r0 with hlt | heq | hgt
          · exact absurd hpr (by rw [hprev0 r (Nat.zero_le r) hlt]; simp)
          · rw [heq]
            rfl
          · have : carries_unconsensused g obs r0 = false := by
              rcases Nat.lt_or_ge r0 start with hc | hc
              · exact hinv r0 hc
              · exact hprev r0 (by omega) hgt
            exact absurd hpr0 (by rw [this]; simp)
      | none =>
          have := hnone0 hfind0 r (Nat.zero_le r) (by omega)
          exact absurd hpr (by rw [this]; simp)
  | none =>
      cases hfind0 : (List.range' 0 g.length).find? fun i =>
          carries_unconsensused g obs i with
      | some r0 =>
          obtain ⟨_, hr0len, hpr0, _⟩ := hsome0 r0 hfind0
          have : carries_unconsensused g obs r0 = false := by
            rcases Nat.lt_or_ge r0 start with hc | hc
            · exact hinv r0 hc
            · exact hnone hfind r0 (by omega) (by omega)
          exact absurd hpr0 (by rw [this]; simp)
      | none => rfl

/-- The rotation re-establishes the hypothesis of the previous theorem: all
events below the freshly computed start index carry only consensused (or
no) payloads, so the invariant holds at every decision point by induction
from the initial start index 0. -/
theorem compute_next_start_index_preserves_invariant (g : Graph)
    (obs : List (Nat × ObservationInfo)) (start : Nat)
    (hinv : ∀ i, i < start → carries_unconsensused g obs i = false) :
    ∀ i, i < compute_next_meta_election_start_index g obs start →
      carries_unconsensused g obs i = false := by
  intro i hi
  rw [compute_next_meta_election_start_index, List.range_eq_range',
    range_drop_eq_range'] at hi
  obtain ⟨hsome, hnone⟩ :=
    find?_range'_spec (fun j => carries_unconsensused g obs j) (g.length - start)
      (0 + start)
  rcases Nat.lt_or_ge i start with hc | hc
  · exact hinv i hc
  · cases hfind : (List.range' (0 + start) (g.length - start)).find? fun j =>
        carries_unconsensused g obs j with
    | some r =>
        rw [hfind] at hi
        exact hsome r hfind |>.2.2.2 i (by omega) hi
    | none =>
        rw [hfind] at hi
        have hi2 : i < g.length := hi
        exact hnone hfind i (by omega) (by omega)

theorem compute_next_start_index_graph_earliest_witness :
    compute_next_meta_election_start_index fork_graph
        [(99, ObservationInfo.mk false false)] 2
      = (earliest_unconsensused fork_graph
          [(99, ObservationInfo.mk false false)]).getD fork_graph.length :=
  compute_next_start_index_graph_earliest fork_graph
    [(99, ObservationInfo.mk false false)] 2 (by decide)

/-! ## Consensus driver state machine (src/parsec.rs)

For the entry-point claims the state is reduced to the fields the claims
touch: our id and capability state, the graph (event creator plus cause,
with parents referenced by topological index; the `EventHash::ZERO`
placeholder hash becomes `none`), and the pending accusations. The
observation store and meta-election registry never change the graph order
and are omitted here. `Graph::insert` appends (modelled from the spec:
gossip/graph.rs is not under src/; section 3 describes the graph as an
append-only topologically ordered vector), and the peer list's per-peer
event index is read off the graph (modelled from the spec, section 3). -/

structure PeerState where
  vote : Bool
  send : Bool
  recv : Bool
deriving DecidableEq, Repr

/-- `PeerState::contains`: all required bits are set. -/
def PeerState.contains (actual required : PeerState) : Bool :=
  (!required.vote || actual.vote) && (!required.send || actual.send) &&
    (!required.recv || actual.recv)

def PeerState.VOTE : PeerState := ⟨true, false, false⟩

inductive DObservation where
  | genesis (group : List Nat)
  | addPeer (peer : Nat)
  | removePeer (peer : Nat)
  | accusation (offender : Nat) (malice : Nat)
  | opaquePayload (payload : Nat)
deriving DecidableEq, Repr

inductive DCause where
  | initial
  | requesting (self_parent : Nat) (recipient : Nat)
  | request (self_parent : Nat) (other_parent : Nat)
  | response (self_parent : Nat) (other_parent : Nat)
  | observation (self_parent : Option Nat) (vote : DObservation)
deriving DecidableEq, Repr

structure DEvent where
  creator : Nat
  cause : DCause
deriving DecidableEq, Repr

inductive DriverError where
  | invalidSelfState
  | invalidPeerState
  | duplicateVote
  | invalidEvent
  | logic
deriving DecidableEq, Repr

structure DState where
  our_id : Nat
  our_state : PeerState
  graph : List DEvent
  pending_accusations : List (Nat × Nat)
deriving DecidableEq, Repr

/-- `PeerList::last_event`: the peer's most recent event, read off the
graph's per-peer index (modelled from the spec, section 3). -/
def last_event_of (g : List DEvent) (peer : Nat) : Option Nat :=
  (((List.range g.length)).filter fun i =>
    (g.get? i).any fun e => e.creator == peer).getLast?

def confirm_self_state (s : DState) (required : PeerState) :
    Except DriverError Unit :=
  if s.our_state.contains required then Except.ok ()
  else Except.error DriverError.invalidSelfState

/-- `have_voted_for` (src/parsec.rs lines 348-355): some event of ours
carries a vote with this payload. -/
def have_voted_for (s : DState) (observation : DObservation) : Bool :=
  s.graph.any fun e =>
    e.creator == s.our_id &&
      match e.cause with
      | DCause.observation _ v => v == observation
      | _ => false

def cause_self_parent : DCause → Option (Option Nat)
  | DCause.initial => none
  | DCause.requesting sp _ => some (some sp)
  | DCause.request sp _ => some (some sp)
  | DCause.response sp _ => some (some sp)
  | DCause.observation sp _ => some sp

/-- `PeerList::confirm_can_add_event`. Modelled from the spec: peer_list.rs
is not under src/; the spec's add_event step 2 confirms continuity, i.e.
the event chains onto the creator's current last event (initial events
require no prior event). -/
def confirm_can_add_event (s : DState) (e : DEvent) :
    Except DriverError Unit :=
  match cause_self_parent e.cause with
  | none =>
      if last_event_of s.graph e.creator = none then Except.ok ()
      else Except.error DriverError.invalidEvent
  | some sp =>
      if last_event_of s.graph e.creator = sp then Except.ok ()
      else Except.error DriverError.invalidEvent

/-- `add_event` (src/parsec.rs lines 600-636) for events created by us:
malice detection is skipped for own events; the observation store and
meta-election updates do not touch the graph. Returns the new topological
index. -/
def add_event (s : DState) (e : DEvent) :
    Except DriverError (DState × Nat) :=
  match confirm_can_add_event s e with
  | Except.error err => Except.error err
  | Except.ok _ => Except.ok ({ s with graph := s.graph ++ [e] }, s.graph.length)

def our_last_event (s : DState) : Option Nat :=
  last_event_of s.graph s.our_id

/-- `vote_for` (src/parsec.rs lines 235-254). -/
def vote_for (s : DState) (observation : DObservation) :
    Except DriverError DState :=
  match confirm_self_state s PeerState.VOTE with
  | Except.error err => Except.error err
  | Except.ok _ =>
      if have_voted_for s observation then Except.error DriverError.duplicateVote
      else
        match add_event s
            ⟨s.our_id, DCause.observation (our_last_event s) observation⟩ with
        | Except.error err => Except.error err
        | Except.ok (s2, _) => Except.ok s2

/-- `create_sync_event` (src/parsec.rs lines 1564-1610): self-parent is our
last event, other parent the sender's last event; either missing is a
`Logic` error. -/
def create_sync_event (s : DState) (src : Nat) (is_request : Bool) :
    Except DriverError DState :=
  match our_last_event s, last_event_of s.graph src with
  | some sp, some op =>
      match add_event s ⟨s.our_id,
          if is_request then DCause.request sp op else DCause.response sp op⟩ with
      | Except.error err => Except.error err
      | Except.ok (s2, _) => Except.ok s2
  | _, _ => Except.error DriverError.logic

/-- `create_accusation_event` (src/parsec.rs lines 1648-1662). -/
def create_accusation_event (s : DState) (offender malice : Nat) :
    Except DriverError DState :=
  match add_event s ⟨s.our_id, DCause.observation (our_last_event s)
      (DObservation.accusation offender malice)⟩ with
  | Except.error err => Except.error err
  | Except.ok (s2, _) => Except.ok s2

def create_accusation_events_go :
    DState → List (Nat × Nat) → Except DriverError DState
  | s, [] => Except.ok s
  | s, (offender, malice) :: rest =>
      match create_accusation_event s offender malice with
      | Except.error err => Except.error err
      | Except.ok s2 => create_accusation_events_go s2 rest

/-- `create_accusation_events` (src/parsec.rs lines 1664-1671): drain the
pending accusations, creating one Observation event each. -/
def create_accusation_events (s : DState) : Except DriverError DState :=
  create_accusation_events_go { s with pending_accusations := [] }
    s.pending_accusations

/-- The graph-mutating suffix of `handle_request` (src/parsec.rs lines
299-313): after `unpack_and_add_events` produced the state `s` (with the
call's accusations pending), the sync event is created first, then the
accusation events. `events_to_gossip_to_peer` does not change the graph. -/
def handle_request_after_unpack (s : DState) (src : Nat) :
    Except DriverError DState :=
  match create_sync_event s src true with
  | Except.error err => Except.error err
  | Except.ok s2 => create_accusation_events s2

/-- Same for `handle_response` (src/parsec.rs lines 317-330). -/
def handle_response_after_unpack (s : DState) (src : Nat) :
    Except DriverError DState :=
  match create_sync_event s src false with
  | Except.error err => Except.error err
  | Except.ok s2 => create_accusation_events s2

theorem add_event_ok (s : DState) (e : DEvent)
    (h : confirm_can_add_event s e = Except.ok ()) :
    add_event s e
      = Except.ok ({ s with graph := s.graph ++ [e] }, s.graph.length) := by
  rw [add_event, h]

theorem confirm_own_observation (s : DState) (v : DObservation) :
    confirm_can_add_event s
      ⟨s.our_id, DCause.observation (our_last_event s) v⟩ = Except.ok () := by
  simp [confirm_can_add_event, cause_self_parent, our_last_event]

theorem create_accusation_events_go_spec :
    ∀ (l : List (Nat × Nat)) (s s' : DState),
      create_accusation_events_go s l = Except.ok s' →
      s'.graph.length = s.graph.length + l.length ∧
      s'.our_id = s.our_id ∧
      (∀ j, j < s.graph.length → s'.graph[j]? = s.graph[j]?) ∧
      (∀ k, k < l.length →
        ∃ off mal sp, l[k]? = some (off, mal) ∧
          s'.graph[s.graph.length + k]?
            = some ⟨s.our_id, DCause.observation sp
                (DObservation.accusation off mal)⟩)
  | [], s, s', h => by
      rw [create_accusation_events_go] at h
      cases h
      exact ⟨rfl, rfl, fun j _ => rfl, fun k hk => absurd hk (by simp)⟩
  | (off, mal) :: rest, s, s', h => by
      rw [create_accusation_events_go] at h
      rw [create_accusation_event,
        add_event_ok s _ (confirm_own_observation s _)] at h
      have h2 : create_accusation_events_go
          { s with graph := s.graph ++ [⟨s.our_id,
              DCause.observation (our_last_event s)
                (DObservation.accusation off mal)⟩] } rest = Except.ok s' := h
      obtain ⟨hlen, hid, hpre, hacc⟩ :=
        create_accusation_events_go_spec rest _ s' h2
      dsimp only at hlen hid hpre hacc
      rw [List.length_append] at hlen
      simp only [List.length_cons, List.length_nil] at hlen
      refine ⟨by rw [List.length_cons]; omega, hid, ?_, ?_⟩
      · intro j hj
        rw [hpre j (by rw [List.length_append]; omega)]
        exact List.getElem?_append_left hj
      · intro k hk
        cases k with
        | zero =>
            refine ⟨off, mal, our_last_event s, by simp, ?_⟩
            rw [Nat.add_zero,
              hpre s.graph.length (by rw [List.length_append]; simp)]
            exact List.getElem?_concat_length _ _
        | succ k' =>
            obtain ⟨off', mal', sp', hl, hpos⟩ := hacc k' (by simpa using hk)
            refine ⟨off', mal', sp', by simpa using hl, ?_⟩
            have harith : s.graph.length + (k' + 1)
                = (s.graph ++ [(⟨s.our_id, DCause.observation (our_last_event s)
                    (DObservation.accusation off mal)⟩ : DEvent)]).length + k' := by
              rw [List.length_append]
              simp only [List.length_cons, List.length_nil]
              omega
            rw [harith]
            exact hpos

/-- C6: within a single `handle_request` or `handle_response`, the
synthesized sync event is added to the graph before every
Observation{Accusation} event created from the call's pending accusations:
the sync event lands at topological index `|graph|` (the graph length at
sync time) and the k-th accusation event at index `|graph| + 1 + k`, which
is strictly larger. -/
theorem sync_event_precedes_accusation_events (s : DState) (src : Nat) :
    (∀ s', handle_request_after_unpack s src = Except.ok s' →
      (∃ sp op, s'.graph[s.graph.length]?
          = some ⟨s.our_id, DCause.request sp op⟩) ∧
      s'.graph.length = s.graph.length + 1 + s.pending_accusations.length ∧
      (∀ k, k < s.pending_accusations.length →
        ∃ off mal sp2, s.pending_accusations[k]? = some (off, mal) ∧
          s'.graph[s.graph.length + 1 + k]?
            = some ⟨s.our_id, DCause.observation sp2
                (DObservation.accusation off mal)⟩ ∧
          s.graph.length < s.graph.length + 1 + k)) ∧
    (∀ s', handle_response_after_unpack s src = Except.ok s' →
      (∃ sp op, s'.graph[s.graph.length]?
          = some ⟨s.our_id, DCause.response sp op⟩) ∧
      s'.graph.length = s.graph.length + 1 + s.pending_accusations.length ∧
      (∀ k, k < s.pending_accusations.length →
        ∃ off mal sp2, s.pending_accusations[k]? = some (off, mal) ∧
          s'.graph[s.graph.length + 1 + k]?
            = some ⟨s.our_id, DCause.observation sp2
                (DObservation.accusation off mal)⟩ ∧
          s.graph.length < s.graph.length + 1 + k)) := by
  have main : ∀ (is_request : Bool) (s' : DState),
      (match create_sync_event s src is_request with
        | Except.error err => Except.error err
        | Except.ok s2 => create_accusation_events s2) = Except.ok s' →
      (∃ sp op, s'.graph[s.graph.length]?
          = some ⟨s.our_id,
            if is_request then DCause.request sp op else DCause.response sp op⟩) ∧
      s'.graph.length = s.graph.length + 1 + s.pending_accusations.length ∧
      (∀ k, k < s.pending_accusations.length →
        ∃ off mal sp2, s.pending_accusations[k]? = some (off, mal) ∧
          s'.graph[s.graph.length + 1 + k]?
            = some ⟨s.our_id, DCause.observation sp2
                (DObservation.accusation off mal)⟩ ∧
          s.graph.length < s.graph.length + 1 + k) := by
    intro is_request s' h
    rw [create_sync_event] at h
    cases hour : our_last_event s with
    | none => rw [hour] at h; exact absurd h (by simp)
    | some sp =>
    cases hsrc : last_event_of s.graph src with
    | none => rw [hour, hsrc] at h; exact absurd h (by simp)
    | some op =>
    rw [hour, hsrc] at h
    have hconf : confirm_can_add_event s ⟨s.our_id,
        if is_request then DCause.request sp op else DCause.response sp op⟩
        = Except.ok () := by
      have hlast : last_event_of s.graph s.our_id = some sp := hour
      cases is_request with
      | true => simp [confirm_can_add_event, cause_self_parent, hlast]
      | false => simp [confirm_can_add_event, cause_self_parent, hlast]
    simp only [add_event_ok s _ hconf] at h
    rw [create_accusation_events] at h
    obtain ⟨hlen, hid, hpre, hacc⟩ := create_accusation_events_go_spec _ _ s' h
    simp only [List.length_append, List.length_cons, List.length_nil] at hlen hpre hacc
    refine ⟨?_, ?_, ?_⟩
    · refine ⟨sp, op, ?_⟩
      rw [hpre s.graph.length (by omega)]
      exact List.getElem?_concat_length _ _
    · omega
    · intro k hk
      obtain ⟨off, mal, sp2, hl, hpos⟩ := hacc k hk
      refine ⟨off, mal, sp2, hl, ?_, by omega⟩
      have harith : s.graph.length + 1 + k = s.graph.length + (1 + 0) + k := by
        omega
      rw [harith]
      exact hpos
  refine ⟨fun s' h => ?_, fun s' h => ?_⟩
  · have hmain := main true s' (by rw [handle_request_after_unpack] at h; exact h)
    simpa using hmain
  · have hmain := main false s' (by rw [handle_response_after_unpack] at h; exact h)
    simpa using hmain

def sync_state_ex : DState :=
  ⟨0, ⟨true, true, true⟩, [⟨0, DCause.initial⟩, ⟨1, DCause.initial⟩], [(1, 7)]⟩

def sync_state_ex_result : DState :=
  ⟨0, ⟨true, true, true⟩,
    [⟨0, DCause.initial⟩, ⟨1, DCause.initial⟩, ⟨0, DCause.request 0 1⟩,
      ⟨0, DCause.observation (some 2) (DObservation.accusation 1 7)⟩], []⟩

theorem sync_event_precedes_accusation_events_witness :
    (∃ sp op, sync_state_ex_result.graph[sync_state_ex.graph.length]?
        = some ⟨sync_state_ex.our_id, DCause.request sp op⟩) ∧
      sync_state_ex_result.graph.length
        = sync_state_ex.graph.length + 1
            + sync_state_ex.pending_accusations.length ∧
      (∀ k, k < sync_state_ex.pending_accusations.length →
        ∃ off mal sp2, sync_state_ex.pending_accusations[k]? = some (off, mal) ∧
          sync_state_ex_result.graph[sync_state_ex.graph.length + 1 + k]?
            = some ⟨sync_state_ex.our_id, DCause.observation sp2
                (DObservation.accusation off mal)⟩ ∧
          sync_state_ex.graph.length < sync_state_ex.graph.length + 1 + k) :=
  (sync_event_precedes_accusation_events sync_state_ex 1).1
    sync_state_ex_result (by rfl)

def vote_state_ex : DState := ⟨0, ⟨true, true, true⟩, [⟨0, DCause.initial⟩], []⟩

/-- C8: `vote_for` returns InvalidSelfState when our peer state lacks the
VOTE capability; otherwise it returns DuplicateVote exactly when we have
already voted for the same observation; otherwise it appends a new
Observation event with our last event as self-parent and returns Ok. -/
theorem vote_for_spec (s : DState) (obs : DObservation) :
    (s.our_state.vote = false →
      vote_for s obs = Except.error DriverError.invalidSelfState) ∧
    (s.our_state.vote = true →
      (vote_for s obs = Except.error DriverError.duplicateVote ↔
        have_voted_for s obs = true)) ∧
    (s.our_state.vote = true → have_voted_for s obs = false →
      vote_for s obs = Except.ok { s with graph := s.graph ++
        [⟨s.our_id, DCause.observation (our_last_event s) obs⟩] }) := by
  have hconfirm_err : s.our_state.vote = false →
      confirm_self_state s PeerState.VOTE
        = Except.error DriverError.invalidSelfState := by
    intro h
    simp [confirm_self_state, PeerState.contains, PeerState.VOTE, h]
  have hconfirm_ok : s.our_state.vote = true →
      confirm_self_state s PeerState.VOTE = Except.ok () := by
    intro h
    simp [confirm_self_state, PeerState.contains, PeerState.VOTE, h]
  have hok : s.our_state.vote = true → have_voted_for s obs = false →
      vote_for s obs = Except.ok { s with graph := s.graph ++
        [⟨s.our_id, DCause.observation (our_last_event s) obs⟩] } := by
    intro hv hh
    rw [vote_for, hconfirm_ok hv, hh,
      add_event_ok s _ (confirm_own_observation s obs)]
    simp
  refine ⟨?_, ?_, hok⟩
  · intro h
    rw [vote_for, hconfirm_err h]
  · intro hv
    cases hh : have_voted_for s obs with
    | true =>
        rw [vote_for, hconfirm_ok hv, hh]
        simp
    | false =>
        rw [hok hv hh]
        simp

theorem vote_for_spec_witness :
    vote_for vote_state_ex (DObservation.opaquePayload 5)
      = Except.ok { vote_state_ex with graph := vote_state_ex.graph ++
          [⟨vote_state_ex.our_id,
            DCause.observation (our_last_event vote_state_ex)
              (DObservation.opaquePayload 5)⟩] } :=
  (vote_for_spec vote_state_ex (DObservation.opaquePayload 5)).2.2
    (by rfl) (by rfl)

/-! ## Unprovable malice (src/observation.rs)

Serialization is modelled as a concrete tagged byte encoding (naturals for
bytes): serde's derived encoding writes the variant tag then the fields,
and `UnprovableMalice`'s manual `Serialize` impl writes a unit (no bytes)
regardless of the variant. The observation hash is the hash of the
serialized bytes, so equal byte strings give equal hashes. -/

inductive UnprovableMalice where
  | accomplice (hash : Nat)
  | spam
  | unspecified
deriving Repr

/-- The manual `PartialEq` impl: any two values compare equal. -/
def UnprovableMalice.eq (_ _ : UnprovableMalice) : Bool := true

/-- The manual `Ord`/`PartialOrd` impls: always `Ordering::Equal`. -/
def UnprovableMalice.cmp (_ _ : UnprovableMalice) : Ordering := Ordering.eq

/-- The manual `Serialize` impl: `serialize_unit`, ignoring the variant. -/
def UnprovableMalice.serialize (_ : UnprovableMalice) : List Nat := []

/-- The manual `Deserialize` impl: a unit deserializes to `Unspecified`. -/
def UnprovableMalice.deserialize (_ : List Nat) : UnprovableMalice :=
  UnprovableMalice.unspecified

inductive MaliceR where
  | unexpectedGenesis (hash : Nat)
  | duplicateVote (first second : Nat)
  | missingGenesis (hash : Nat)
  | incorrectGenesis (hash : Nat)
  | staleOtherParent (hash : Nat)
  | fork (hash : Nat)
  | invalidAccusation (hash : Nat)
  | invalidGossipCreator (hash : Nat)
  | otherParentBySameCreator (packed : Nat)
  | selfParentByDifferentCreator (packed : Nat)
  | unprovable (u : UnprovableMalice)
deriving Repr

/-- Derived `PartialEq` for `Malice`: same variant and equal fields, with
the `Unprovable` arm delegating to `UnprovableMalice`'s impl. -/
def MaliceR.eq : MaliceR → MaliceR → Bool
  | .unexpectedGenesis a, .unexpectedGenesis b => a == b
  | .duplicateVote a b, .duplicateVote c d => a == c && b == d
  | .missingGenesis a, .missingGenesis b => a == b
  | .incorrectGenesis a, .incorrectGenesis b => a == b
  | .staleOtherParent a, .staleOtherParent b => a == b
  | .fork a, .fork b => a == b
  | .invalidAccusation a, .invalidAccusation b => a == b
  | .invalidGossipCreator a, .invalidGossipCreator b => a == b
  | .otherParentBySameCreator a, .otherParentBySameCreator b => a == b
  | .selfParentByDifferentCreator a, .selfParentByDifferentCreator b => a == b
  | .unprovable u, .unprovable v => UnprovableMalice.eq u v
  | _, _ => false

def MaliceR.tag : MaliceR → Nat
  | .unexpectedGenesis _ => 0
  | .duplicateVote _ _ => 1
  | .missingGenesis _ => 2
  | .incorrectGenesis _ => 3
  | .staleOtherParent _ => 4
  | .fork _ => 5
  | .invalidAccusation _ => 6
  | .invalidGossipCreator _ => 7
  | .otherParentBySameCreator _ => 8
  | .selfParentByDifferentCreator _ => 9
  | .unprovable _ => 10

/-- Derived `Ord` for `Malice`: declaration order of variants, then fields,
with the `Unprovable` arm delegating to `UnprovableMalice`'s impl. -/
def MaliceR.cmp : MaliceR → MaliceR → Ordering
  | .unexpectedGenesis a, .unexpectedGenesis b => compare a b
  | .duplicateVote a b, .duplicateVote c d =>
      (compare a c).then (compare b d)
  | .missingGenesis a, .missingGenesis b => compare a b
  | .incorrectGenesis a, .incorrectGenesis b => compare a b
  | .staleOtherParent a, .staleOtherParent b => compare a b
  | .fork a, .fork b => compare a b
  | .invalidAccusation a, .invalidAccusation b => compare a b
  | .invalidGossipCreator a, .invalidGossipCreator b => compare a b
  | .otherParentBySameCreator a, .otherParentBySameCreator b => compare a b
  | .selfParentByDifferentCreator a, .selfParentByDifferentCreator b =>
      compare a b
  | .unprovable u, .unprovable v => UnprovableMalice.cmp u v
  | x, y => compare x.tag y.tag

/-- Serde-style encoding of `Malice`: variant tag, then field bytes; the
`Unprovable` payload contributes `UnprovableMalice.serialize`. -/
def MaliceR.serialize : MaliceR → List Nat
  | .unexpectedGenesis a => 0 :: [a]
  | .duplicateVote a b => 1 :: [a, b]
  | .missingGenesis a => 2 :: [a]
  | .incorrectGenesis a => 3 :: [a]
  | .staleOtherParent a => 4 :: [a]
  | .fork a => 5 :: [a]
  | .invalidAccusation a => 6 :: [a]
  | .invalidGossipCreator a => 7 :: [a]
  | .otherParentBySameCreator a => 8 :: [a]
  | .selfParentByDifferentCreator a => 9 :: [a]
  | .unprovable u => 10 :: UnprovableMalice.serialize u

inductive ObservationR where
  | genesis (group : List Nat)
  | addPeer (peer : Nat) (related_info : List Nat)
  | removePeer (peer : Nat) (related_info : List Nat)
  | accusation (offender : Nat) (malice : MaliceR)
  | opaquePayload (payload : Nat)
deriving Repr

/-- Derived `PartialEq` for `Observation`. -/
def ObservationR.eq : ObservationR → ObservationR → Bool
  | .genesis a, .genesis b => a == b
  | .addPeer a i, .addPeer b j => a == b && i == j
  | .removePeer a i, .removePeer b j => a == b && i == j
  | .accusation a m, .accusation b n => a == b && MaliceR.eq m n
  | .opaquePayload a, .opaquePayload b => a == b
  | _, _ => false

def serialize_list (ns : List Nat) : List Nat := ns.length :: ns

def ObservationR.serialize : ObservationR → List Nat
  | .genesis group => 0 :: serialize_list group
  | .addPeer p i => 1 :: p :: serialize_list i
  | .removePeer p i => 2 :: p :: serialize_list i
  | .accusation off m => 3 :: off :: MaliceR.serialize m
  | .opaquePayload p => 4 :: [p]

/-- `ObservationHash::from(&observation)`: the hash of the canonical
serialization. Hashing is injective on byte strings, so the bytes stand in
for the hash value. -/
def observation_hash (o : ObservationR) : List Nat := ObservationR.serialize o

/-- C10: any two `Malice::Unprovable` values compare equal (`PartialEq` and
`Ord`) and serialize to identical bytes regardless of their
`UnprovableMalice` variant, so two accusation observations differing only
in the kind of unprovable malice are equal observations with equal
observation hashes. -/
theorem unprovable_malice_ignored (u v : UnprovableMalice) (off : Nat) :
    UnprovableMalice.eq u v = true ∧
      UnprovableMalice.cmp u v = Ordering.eq ∧
      UnprovableMalice.serialize u = UnprovableMalice.serialize v ∧
      MaliceR.eq (MaliceR.unprovable u) (MaliceR.unprovable v) = true ∧
      MaliceR.cmp (MaliceR.unprovable u) (MaliceR.unprovable v)
        = Ordering.eq ∧
      ObservationR.eq (ObservationR.accusation off (MaliceR.unprovable u))
        (ObservationR.accusation off (MaliceR.unprovable v)) = true ∧
      observation_hash (ObservationR.accusation off (MaliceR.unprovable u))
        = observation_hash
            (ObservationR.accusation off (MaliceR.unprovable v)) := by
  refine ⟨rfl, rfl, rfl, rfl, rfl, ?_, rfl⟩
  simp [ObservationR.eq, MaliceR.eq, UnprovableMalice.eq]

/-! ## Event packing and unpacking (src/gossip/event.rs)

Wire form (`PackedEvent`): creator as public id, parents as event hashes.
In-memory form (`Event`): creator as peer index, parents as topological
indices, plus the cached hash. `Event`'s `PartialEq` compares content and
signature only, so "structurally equal" below means equal content and
signature. Public ids, hashes and signatures are naturals; signature
verification (`PublicId::verify_signature`) and hashing (`Hash::from`) are
abstract and passed as function parameters; canonical serialization of wire
content is a concrete tagged encoding. Votes are carried as their payload
key on both sides (modelled from the spec: the vote store resolution lives
in content.rs, which is not under src/; section 3 describes votes as
content-addressed payloads plus a signature). -/

inductive WireCause where
  | initial
  | requesting (self_parent : Nat) (recipient : Nat)
  | request (self_parent : Nat) (other_parent : Nat)
  | response (self_parent : Nat) (other_parent : Nat)
  | observation (self_parent : Nat) (vote : Nat)
deriving DecidableEq, Repr

structure WireContent where
  creator : Nat
  cause : WireCause
deriving DecidableEq, Repr

structure PackedEvent where
  content : WireContent
  signature : Nat
deriving DecidableEq, Repr

inductive MemCause where
  | initial
  | requesting (self_parent : Nat) (recipient : Nat)
  | request (self_parent : Nat) (other_parent : Nat)
  | response (self_parent : Nat) (other_parent : Nat)
  | observation (self_parent : Nat) (vote : Nat)
deriving DecidableEq, Repr

structure MemContent where
  creator : Nat
  cause : MemCause
deriving DecidableEq, Repr

structure MemEvent where
  content : MemContent
  signature : Nat
  hash : Nat
deriving DecidableEq, Repr

inductive EventError where
  | signatureFailure
  | unknownParent
  | unknownPeer
deriving DecidableEq, Repr

/-- Canonical serialization of wire content: deterministic tagged
encoding (fixed field order, spec section 6). -/
def serialiseWC : WireCause → List Nat
  | .initial => [0]
  | .requesting sp r => [1, sp, r]
  | .request sp op => [2, sp, op]
  | .response sp op => [3, sp, op]
  | .observation sp v => [4, sp, v]

def serialiseW (c : WireContent) : List Nat :=
  c.creator :: serialiseWC c.cause

/-- src/gossip/event.rs lines 664-677. -/
def compute_event_hash_and_verify_signature
    (verify : Nat → Nat → List Nat → Bool) (hashFn : List Nat → Nat)
    (content : WireContent) (signature : Nat) : Except EventError Nat :=
  let serialised_content := serialiseW content
  if verify content.creator signature serialised_content then
    Except.ok (hashFn serialised_content)
  else Except.error EventError.signatureFailure

def lookup_hash (g : List MemEvent) (idx : Nat) : Except EventError Nat :=
  match g.get? idx with
  | some e => Except.ok e.hash
  | none => Except.error EventError.unknownParent

def find_index_by_hash (g : List MemEvent) (h : Nat) : Option Nat :=
  (List.range g.length).find? fun i => (g.get? i).any fun e => e.hash == h

def resolve_parent (g : List MemEvent) (h : Nat) : Except EventError Nat :=
  match find_index_by_hash g h with
  | some i => Except.ok i
  | none => Except.error EventError.unknownParent

def resolve_peer (pl : List Nat) (pid : Nat) : Except EventError Nat :=
  match (List.range pl.length).find? fun i => pl.get? i == some pid with
  | some i => Except.ok i
  | none => Except.error EventError.unknownPeer

/-- `Content::pack`. Modelled from the spec: content.rs is not under src/;
the wire cause carries parent hashes, not indexes (section 6), and the
creator's public id. -/
def content_pack (g : List MemEvent) (pl : List Nat) (c : MemContent) :
    Except EventError WireContent :=
  match pl.get? c.creator with
  | none => Except.error EventError.unknownPeer
  | some pid =>
      match c.cause with
      | .initial => Except.ok ⟨pid, WireCause.initial⟩
      | .requesting sp r =>
          match lookup_hash g sp, pl.get? r with
          | Except.ok sph, some rid =>
              Except.ok ⟨pid, WireCause.requesting sph rid⟩
          | Except.error err, _ => Except.error err
          | _, none => Except.error EventError.unknownPeer
      | .request sp op =>
          match lookup_hash g sp, lookup_hash g op with
          | Except.ok sph, Except.ok oph =>
              Except.ok ⟨pid, WireCause.request sph oph⟩
          | Except.error err, _ => Except.error err
          | _, Except.error err => Except.error err
      | .response sp op =>
          match lookup_hash g sp, lookup_hash g op with
          | Except.ok sph, Except.ok oph =>
              Except.ok ⟨pid, WireCause.response sph oph⟩
          | Except.error err, _ => Except.error err
          | _, Except.error err => Except.error err
      | .observation sp v =>
          match lookup_hash g sp with
          | Except.ok sph => Except.ok ⟨pid, WireCause.observation sph v⟩
          | Except.error err => Except.error err

/-- `Content::unpack`. Modelled from the spec: content.rs is not under
src/; unpacking resolves parent hashes to indexes, failing with
UnknownParent if absent (section 4.2), and the creator's public id to its
peer index. -/
def content_unpack (g : List MemEvent) (pl : List Nat) (w : WireContent) :
    Except EventError MemContent :=
  match resolve_peer pl w.creator with
  | Except.error err => Except.error err
  | Except.ok creator =>
      match w.cause with
      | .initial => Except.ok ⟨creator, MemCause.initial⟩
      | .requesting sph rid =>
          match resolve_parent g sph, resolve_peer pl rid with
          | Except.ok sp, Except.ok r =>
              Except.ok ⟨creator, MemCause.requesting sp r⟩
          | Except.error err, _ => Except.error err
          | _, Except.error err => Except.error err
      | .request sph oph =>
          match resolve_parent g sph, resolve_parent g oph with
          | Except.ok sp, Except.ok op =>
              Except.ok ⟨creator, MemCause.request sp op⟩
          | Except.error err, _ => Except.error err
          | _, Except.error err => Except.error err
      | .response sph oph =>
          match resolve_parent g sph, resolve_parent g oph with
          | Except.ok sp, Except.ok op =>
              Except.ok ⟨creator, MemCause.response sp op⟩
          | Except.error err, _ => Except.error err
          | _, Except.error err => Except.error err
      | .observation sph v =>
          match resolve_parent g sph with
          | Except.ok sp => Except.ok ⟨creator, MemCause.observation sp v⟩
          | Except.error err => Except.error err

/-- `Event::unpack` (src/gossip/event.rs lines 207-233): verify the
signature and compute the hash first; return `none` ("known") when the hash
is already in the graph; otherwise resolve the content and build the cached
event. -/
def event_unpack (verify : Nat → Nat → List Nat → Bool)
    (hashFn : List Nat → Nat) (g : List MemEvent) (pl : List Nat)
    (pe : PackedEvent) : Except EventError (Option MemEvent) :=
  match compute_event_hash_and_verify_signature verify hashFn pe.content
      pe.signature with
  | Except.error err => Except.error err
  | Except.ok h =>
      if g.any fun e => e.hash == h then Except.ok none
      else
        match content_unpack g pl pe.content with
        | Except.error err => Except.error err
        | Except.ok content => Except.ok (some ⟨content, pe.signature, h⟩)

/-- `Event::pack` (src/gossip/event.rs lines 236-244). -/
def event_pack (g : List MemEvent) (pl : List Nat) (e : MemEvent) :
    Except EventError PackedEvent :=
  match content_pack g pl e.content with
  | Except.ok c => Except.ok ⟨c, e.signature⟩
  | Except.error err => Except.error err

theorem compute_verify_true (verify : Nat → Nat → List Nat → Bool)
    (hashFn : List Nat → Nat) (content : WireContent) (signature : Nat)
    (h : verify content.creator signature (serialiseW content) = true) :
    compute_event_hash_and_verify_signature verify hashFn content signature
      = Except.ok (hashFn (serialiseW content)) := by
  rw [compute_event_hash_and_verify_signature]
  simp [h]

theorem compute_verify_false (verify : Nat → Nat → List Nat → Bool)
    (hashFn : List Nat → Nat) (content : WireContent) (signature : Nat)
    (h : verify content.creator signature (serialiseW content) = false) :
    compute_event_hash_and_verify_signature verify hashFn content signature
      = Except.error EventError.signatureFailure := by
  rw [compute_event_hash_and_verify_signature]
  simp [h]

/-- C9: `Event::unpack` verifies the signature before checking whether the
event is already known: an invalidly signed packed event yields
SignatureFailure even when its hash is already in the graph, and the
"known" result `Ok(None)` arises only for validly signed events whose hash
is present. -/
theorem event_unpack_signature_before_known
    (verify : Nat → Nat → List Nat → Bool) (hashFn : List Nat → Nat)
    (g : List MemEvent) (pl : List Nat) (pe : PackedEvent) :
    (verify pe.content.creator pe.signature (serialiseW pe.content) = false →
      event_unpack verify hashFn g pl pe
        = Except.error EventError.signatureFailure) ∧
    (event_unpack verify hashFn g pl pe = Except.ok none →
      verify pe.content.creator pe.signature (serialiseW pe.content) = true ∧
      (g.any fun e => e.hash == hashFn (serialiseW pe.content)) = true) := by
  constructor
  · intro h
    rw [event_unpack,
      compute_verify_false verify hashFn pe.content pe.signature h]
  · intro h
    rw [event_unpack] at h
    by_cases hv : verify pe.content.creator pe.signature
        (serialiseW pe.content) = true
    · refine ⟨hv, ?_⟩
      rw [compute_verify_true verify hashFn pe.content pe.signature hv] at h
      dsimp only at h
      by_cases hc : (g.any fun e => e.hash == hashFn (serialiseW pe.content))
          = true
      · exact hc
      · rw [if_neg hc] at h
        cases hcu : content_unpack g pl pe.content with
        | error err => rw [hcu] at h; simp at h
        | ok c => rw [hcu] at h; simp at h
    · have hv2 : verify pe.content.creator pe.signature
          (serialiseW pe.content) = false := by
        cases hverify : verify pe.content.creator pe.signature
            (serialiseW pe.content) with
        | true => exact absurd hverify hv
        | false => rfl
      rw [compute_verify_false verify hashFn pe.content pe.signature hv2] at h
      simp at h

theorem event_unpack_signature_before_known_witness :
    event_unpack (fun _ _ _ => false) (fun _ => 42)
        [⟨⟨0, MemCause.initial⟩, 0, 42⟩] [0] ⟨⟨0, WireCause.initial⟩, 7⟩
      = Except.error EventError.signatureFailure :=
  (event_unpack_signature_before_known (fun _ _ _ => false) (fun _ => 42)
    [⟨⟨0, MemCause.initial⟩, 0, 42⟩] [0] ⟨⟨0, WireCause.initial⟩, 7⟩).1 rfl

theorem resolve_peer_of_get (pl : List Nat) (hpl : pl.Nodup) (idx pid : Nat)
    (h : pl.get? idx = some pid) : resolve_peer pl pid = Except.ok idx := by
  have hlen : idx < pl.length := by
    cases hlt : decide (idx < pl.length) with
    | true => exact of_decide_eq_true hlt
    | false =>
        have : pl.length ≤ idx := Nat.le_of_not_lt (of_decide_eq_false hlt)
        rw [List.get?_eq_getElem?, List.getElem?_eq_none this] at h
        cases h
  obtain ⟨hsome, hnone⟩ :=
    find?_range'_spec (fun i => pl.get? i == some pid) pl.length 0
  rw [resolve_peer, List.range_eq_range']
  cases hfind : (List.range' 0 pl.length).find? fun i =>
      pl.get? i == some pid with
  | none =>
      have := hnone hfind idx (Nat.zero_le idx) (by omega)
      rw [h] at this
      simp at this
  | some r =>
      obtain ⟨_, hrlen, hpr, _⟩ := hsome r hfind
      have hr : pl.get? r = some pid := by simpa using hpr
      have : idx = r := by
        refine List.getElem?_inj hlen hpl ?_
        rw [← List.get?_eq_getElem?, ← List.get?_eq_getElem?, h, hr]
      rw [this]

theorem resolve_parent_of_get (g : List MemEvent)
    (hh : (g.map MemEvent.hash).Nodup) (idx : Nat) (ev : MemEvent)
    (h : g.get? idx = some ev) : resolve_parent g ev.hash = Except.ok idx := by
  have hlen : idx < g.length := by
    cases hlt : decide (idx < g.length) with
    | true => exact of_decide_eq_true hlt
    | false =>
        have : g.length ≤ idx := Nat.le_of_not_lt (of_decide_eq_false hlt)
        rw [List.get?_eq_getElem?, List.getElem?_eq_none this] at h
        cases h
  obtain ⟨hsome, hnone⟩ :=
    find?_range'_spec (fun i => (g.get? i).any fun e => e.hash == ev.hash)
      g.length 0
  rw [resolve_parent, find_index_by_hash, List.range_eq_range']
  cases hfind : (List.range' 0 g.length).find? fun i =>
      (g.get? i).any fun e => e.hash == ev.hash with
  | none =>
      have := hnone hfind idx (Nat.zero_le idx) (by omega)
      rw [h] at this
      simp at this
  | some r =>
      obtain ⟨_, hrlen, hpr, _⟩ := hsome r hfind
      obtain ⟨er, her, hhash⟩ := (option_any_eq_true _ _).mp hpr
      have hhash2 : er.hash = ev.hash := by simpa using hhash
      have hmap : (g.map MemEvent.hash).get? r
          = (g.map MemEvent.hash).get? idx := by
        rw [List.get?_eq_getElem?, List.get?_eq_getElem?, List.getElem?_map,
          List.getElem?_map, ← List.get?_eq_getElem?, ← List.get?_eq_getElem?,
          her, h]
        simp [hhash2]
      have : r = idx := by
        refine List.getElem?_inj ?_ hh ?_
        · rw [List.length_map]; omega
        · rw [← List.get?_eq_getElem?, ← List.get?_eq_getElem?]
          exact hmap
      rw [this]

theorem content_unpack_pack (g : List MemEvent) (pl : List Nat)
    (hh : (g.map MemEvent.hash).Nodup) (hpl : pl.Nodup) (c : MemContent)
    (w : WireContent) (h : content_pack g pl c = Except.ok w) :
    content_unpack g pl w = Except.ok c := by
  obtain ⟨ccr, ccause⟩ := c
  rw [content_pack] at h
  cases hcr : pl.get? ccr with
  | none => rw [hcr] at h; simp at h
  | some pid =>
  rw [hcr] at h
  have hrp : resolve_peer pl pid = Except.ok ccr :=
    resolve_peer_of_get pl hpl ccr pid hcr
  cases ccause with
  | initial =>
      dsimp only at h
      cases h
      rw [content_unpack, hrp]
  | requesting sp r =>
      dsimp only at h
      cases hl : lookup_hash g sp with
      | error err => rw [hl] at h; simp at h
      | ok sph =>
      cases hr : pl.get? r with
      | none => rw [hl, hr] at h; simp at h
      | some rid =>
      rw [hl, hr] at h
      cases h
      rw [lookup_hash] at hl
      cases hg : g.get? sp with
      | none => rw [hg] at hl; simp at hl
      | some ev =>
      rw [hg] at hl
      have hsph : sph = ev.hash := by
        cases hl
        rfl
      rw [content_unpack, hrp]
      dsimp only
      rw [hsph, resolve_parent_of_get g hh sp ev hg,
        resolve_peer_of_get pl hpl r rid hr]
  | request sp op =>
      dsimp only at h
      cases hl : lookup_hash g sp with
      | error err => rw [hl] at h; simp at h
      | ok sph =>
      cases hlo : lookup_hash g op with
      | error err => rw [hl, hlo] at h; simp at h
      | ok oph =>
      rw [hl, hlo] at h
      cases h
      rw [lookup_hash] at hl hlo
      cases hg : g.get? sp with
      | none => rw [hg] at hl; simp at hl
      | some ev =>
      cases hgo : g.get? op with
      | none => rw [hgo] at hlo; simp at hlo
      | some evo =>
      rw [hg] at hl
      rw [hgo] at hlo
      have hsph : sph = ev.hash := by cases hl; rfl
      have hoph : oph = evo.hash := by cases hlo; rfl
      rw [content_unpack, hrp]
      dsimp only
      rw [hsph, hoph, resolve_parent_of_get g hh sp ev hg,
        resolve_parent_of_get g hh op evo hgo]
  | response sp op =>
      dsimp only at h
      cases hl : lookup_hash g sp with
      | error err => rw [hl] at h; simp at h
      | ok sph =>
      cases hlo : lookup_hash g op with
      | error err => rw [hl, hlo] at h; simp at h
      | ok oph =>
      rw [hl, hlo] at h
      cases h
      rw [lookup_hash] at hl hlo
      cases hg : g.get? sp with
      | none => rw [hg] at hl; simp at hl
      | some ev =>
      cases hgo : g.get? op with
      | none => rw [hgo] at hlo; simp at hlo
      | some evo =>
      rw [hg] at hl
      rw [hgo] at hlo
      have hsph : sph = ev.hash := by cases hl; rfl
      have hoph : oph = evo.hash := by cases hlo; rfl
      rw [content_unpack, hrp]
      dsimp only
      rw [hsph, hoph, resolve_parent_of_get g hh sp ev hg,
        resolve_parent_of_get g hh op evo hgo]
  | observation sp v =>
      dsimp only at h
      cases hl : lookup_hash g sp with
      | error err => rw [hl] at h; simp at h
      | ok sph =>
      rw [hl] at h
      cases h
      rw [lookup_hash] at hl
      cases hg : g.get? sp with
      | none => rw [hg] at hl; simp at hl
      | some ev =>
      rw [hg] at hl
      have hsph : sph = ev.hash := by cases hl; rfl
      rw [content_unpack, hrp]
      dsimp only
      rw [hsph, resolve_parent_of_get g hh sp ev hg]

/-- C3 (amended): packing an event of the graph and unpacking the result in
the same context — whose graph does not contain the event (checked by hash)
but does contain its parents, with distinct event hashes and distinct peer
ids — succeeds and yields a structurally equal event: equal content and
signature (the equality `Event::eq` checks). -/
theorem event_pack_unpack_roundtrip (verify : Nat → Nat → List Nat → Bool)
    (hashFn : List Nat → Nat) (g : List MemEvent) (pl : List Nat)
    (e : MemEvent) (pe : PackedEvent)
    (hpack : event_pack g pl e = Except.ok pe)
    (hsig : verify pe.content.creator pe.signature (serialiseW pe.content)
      = true)
    (hnotin : (g.any fun ev => ev.hash == hashFn (serialiseW pe.content))
      = false)
    (hh : (g.map MemEvent.hash).Nodup) (hpl : pl.Nodup) :
    ∃ e2, event_unpack verify hashFn g pl pe = Except.ok (some e2) ∧
      e2.content = e.content ∧ e2.signature = e.signature := by
  rw [event_pack] at hpack
  cases hcp : content_pack g pl e.content with
  | error err => rw [hcp] at hpack; simp at hpack
  | ok c =>
  rw [hcp] at hpack
  cases hpack
  dsimp only at hsig hnotin
  rw [event_unpack, compute_verify_true verify hashFn _ _ hsig]
  dsimp only
  rw [if_neg (by rw [hnotin]; exact Bool.false_ne_true)]
  rw [content_unpack_pack g pl hh hpl e.content c hcp]
  exact ⟨⟨e.content, e.signature, hashFn (serialiseW c)⟩, rfl, rfl, rfl⟩

def pack_graph_ex : List MemEvent :=
  [⟨⟨0, MemCause.initial⟩, 10, 100⟩, ⟨⟨0, MemCause.observation 0 5⟩, 11, 101⟩]

theorem event_pack_unpack_roundtrip_witness :
    ∃ e2, event_unpack (fun _ _ _ => true) (fun bytes => 200 + bytes.length)
        pack_graph_ex [0] ⟨⟨0, WireCause.observation 100 5⟩, 11⟩
        = Except.ok (some e2) ∧
      e2.content = MemContent.mk 0 (MemCause.observation 0 5) ∧
      e2.signature = 11 :=
  event_pack_unpack_roundtrip (fun _ _ _ => true)
    (fun bytes => 200 + bytes.length) pack_graph_ex [0]
    ⟨⟨0, MemCause.observation 0 5⟩, 11, 101⟩
    ⟨⟨0, WireCause.observation 100 5⟩, 11⟩ (by rfl) (by rfl) (by rfl)
    (by decide) (by decide)

/-- C3 counterexample: the second event of `pack_graph_ex` packs
successfully, but unpacking the result in a context whose graph is empty —
which certainly does not contain the event — fails with UnknownParent
instead of succeeding, because the event's self-parent hash cannot be
resolved. -/
theorem pack_unpack_missing_parent_counterexample :
    event_pack pack_graph_ex [0] ⟨⟨0, MemCause.observation 0 5⟩, 11, 101⟩
        = Except.ok ⟨⟨0, WireCause.observation 100 5⟩, 11⟩ ∧
      event_unpack (fun _ _ _ => true) (fun _ => 0) [] [0]
          ⟨⟨0, WireCause.observation 100 5⟩, 11⟩
        = Except.error EventError.unknownParent :=
  ⟨rfl, rfl⟩

end Parsec
